import Mathlib

/-!
Verification of the RAG chatbot repository against its specification.

The frontend chat component (`src/frontend/app/components/DocumentUpload.tsx`,
`ChatInterface`) is embedded directly from the TypeScript source.  The backend
pipeline (Chunker, Embedder, VectorIndex, Retriever, AnswerComposer,
IngestionPipeline) is not present in the repository sources; those components
are modelled from the specification, as marked on each definition.
-/

/-- A chat message as in the `Message` interface of `ChatInterface`:
`role` is `"user"` or `"assistant"`. -/
structure Message where
  role : String
  content : String
  deriving DecidableEq, Repr

/-- Outcome of the awaited `fetch` to the `/ask/` endpoint, as observed by
`handleSubmit`: an ok response carrying an optional `answer` field (none when
the field is absent), a non-ok HTTP response carrying an optional `detail`
field of the parsed error body, or a thrown value (network failure, JSON parse
failure on the success path, ...) carrying `Error.message` when the thrown
value is an `Error`. -/
inductive FetchOutcome where
  | ok (answer : Option String)
  | httpError (status : Nat) (detail : Option String)
  | thrown (message : Option String)
  deriving DecidableEq, Repr

/-- The content of the assistant message `handleSubmit` appends for a given
fetch outcome, following the source: `data.answer || "No answer received."`
on the success path (the `||` fallback also fires on an empty string, which is
falsy in JavaScript); on the error path `Error: ` followed by
`errorData.detail || "HTTP error! status: ..."` for a non-ok response, or by
`error.message` (resp. the generic apology for a non-`Error` throw). -/
def assistantContent : FetchOutcome → String
  | FetchOutcome.ok answer =>
      match answer with
      | some a => if a = "" then "No answer received." else a
      | none => "No answer received."
  | FetchOutcome.httpError status detail =>
      let msg :=
        match detail with
        | some d => if d = "" then "HTTP error! status: " ++ toString status else d
        | none => "HTTP error! status: " ++ toString status
      "Error: " ++ msg
  | FetchOutcome.thrown message =>
      match message with
      | some m => "Error: " ++ m
      | none => "Error: " ++ "Sorry, I encountered an error processing your request."

/-- The React state of `ChatInterface`: the `messages`, `input` and `loading`
`useState` hooks. -/
structure ChatState where
  messages : List Message
  input : String
  loading : Bool
  deriving DecidableEq, Repr

/-- The JSON body sent to `NEXT_PUBLIC_API_BASE_URL + "/ask/"`:
`JSON.stringify({ query: input })`. -/
structure AskRequest where
  query : String
  deriving DecidableEq, Repr

/-- The source's `!input.trim()` check: a string is blank exactly when every
character is whitespace, i.e. when `trim` yields the empty (falsy) string. -/
def isBlank (s : String) : Bool := s.data.all Char.isWhitespace

/-- The request `handleSubmit` sends, if any: nothing when the trimmed input is
empty (the early `return`), otherwise exactly `{ query: input }`.  The body is
built from the `input` state alone; the `messages` transcript is never read
(the chat-history block in the source is commented out). -/
def requestSent (st : ChatState) : Option AskRequest :=
  if isBlank st.input then none else some ⟨st.input⟩

/-- State transition of `ChatInterface.handleSubmit` given the fetch outcome:
early return on whitespace-only input; otherwise the user message is appended
(`setMessages(currentMessages)`), the input is cleared, the assistant message
for the outcome is appended by the functional update, and `loading` ends false
via the `finally` block. -/
def handleSubmit (st : ChatState) (outcome : FetchOutcome) : ChatState :=
  if isBlank st.input then st
  else
    { messages := st.messages ++ [⟨"user", st.input⟩, ⟨"assistant", assistantContent outcome⟩]
      input := ""
      loading := false }

/-- C9: each chat submission is stateless with respect to the transcript: two
component states with the same current input (and any prior message lists)
send the identical request, and when a request is sent its body is exactly
`{ query, current input }`. -/
theorem chat_request_stateless (s1 s2 : ChatState) (h : s1.input = s2.input) :
    requestSent s1 = requestSent s2 ∧
    (isBlank s1.input = false → requestSent s1 = some ⟨s1.input⟩) := by
  constructor
  · unfold requestSent
    rw [h]
  · intro hne
    unfold requestSent
    rw [hne]
    rfl

/-- Witness for C9 at concrete states differing only in their transcripts. -/
theorem chat_request_stateless_witness :
    requestSent ⟨[⟨"user", "earlier turn"⟩], "What is RAG?", false⟩ =
      requestSent ⟨[], "What is RAG?", false⟩ ∧
    requestSent ⟨[⟨"user", "earlier turn"⟩], "What is RAG?", false⟩ =
      some ⟨"What is RAG?"⟩ := by
  have h := chat_request_stateless ⟨[⟨"user", "earlier turn"⟩], "What is RAG?", false⟩
    ⟨[], "What is RAG?", false⟩ rfl
  exact ⟨h.1, h.2 (by decide)⟩

/-- C10 counterexample: on a response whose `answer` field is present but
empty, `handleSubmit` appends the fallback text, not the backend's (empty)
answer — `data.answer || "No answer received."` also falls back on the falsy
empty string, so the fallback is not tied to the field being absent. -/
theorem chat_submit_empty_answer_fallback :
    (handleSubmit ⟨[], "hi", false⟩ (FetchOutcome.ok (some ""))).messages =
      [⟨"user", "hi"⟩, ⟨"assistant", "No answer received."⟩] ∧
    "No answer received." ≠ "" := by
  constructor
  · rfl
  · decide

/-- C10 (amended): a blank submission changes nothing; otherwise the message
list grows by exactly the user message and one assistant entry — the backend's
answer, the fallback text "No answer received." when the response lacks an
answer field or its answer is the empty string, or an "Error: ..." message on
any fetch or HTTP failure — and `loading` is false after the handler completes
on both success and failure paths. -/
theorem chat_submit_effect (st : ChatState) (o : FetchOutcome) :
    (isBlank st.input = true → handleSubmit st o = st) ∧
    (isBlank st.input = false →
      (handleSubmit st o).messages =
        st.messages ++ [⟨"user", st.input⟩, ⟨"assistant", assistantContent o⟩] ∧
      (handleSubmit st o).loading = false) ∧
    (∀ a, a ≠ "" → assistantContent (FetchOutcome.ok (some a)) = a) ∧
    assistantContent (FetchOutcome.ok none) = "No answer received." ∧
    assistantContent (FetchOutcome.ok (some "")) = "No answer received." ∧
    (∀ n d, ∃ rest, assistantContent (FetchOutcome.httpError n d) = "Error: " ++ rest) ∧
    (∀ m, ∃ rest, assistantContent (FetchOutcome.thrown m) = "Error: " ++ rest) := by
  refine ⟨?_, ?_, ?_, rfl, rfl, ?_, ?_⟩
  · intro hb
    unfold handleSubmit
    rw [hb]
    rfl
  · intro hb
    unfold handleSubmit
    rw [hb]
    exact ⟨rfl, rfl⟩
  · intro a ha
    show (if a = "" then "No answer received." else a) = a
    rw [if_neg ha]
  · intro n d
    cases d with
    | none => exact ⟨_, rfl⟩
    | some d0 =>
        by_cases hd : d0 = ""
        · subst hd
          exact ⟨_, rfl⟩
        · refine ⟨d0, ?_⟩
          show "Error: " ++ (if d0 = "" then "HTTP error! status: " ++ toString n else d0) =
            "Error: " ++ d0
          rw [if_neg hd]
  · intro m
    cases m with
    | none => exact ⟨_, rfl⟩
    | some m0 => exact ⟨m0, rfl⟩

/-- Witness for C10 (amended) at concrete states: a whitespace-only submission
is a no-op, and a real submission appends exactly the user and assistant
messages with `loading` false. -/
theorem chat_submit_effect_witness :
    handleSubmit ⟨[], " ", true⟩ (FetchOutcome.ok (some "42")) = ⟨[], " ", true⟩ ∧
    (handleSubmit ⟨[], "hi", false⟩ (FetchOutcome.ok (some "42"))).messages =
      [⟨"user", "hi"⟩, ⟨"assistant", "42"⟩] ∧
    (handleSubmit ⟨[], "hi", false⟩ (FetchOutcome.ok (some "42"))).loading = false := by
  have h1 := chat_submit_effect ⟨[], " ", true⟩ (FetchOutcome.ok (some "42"))
  have h2 := chat_submit_effect ⟨[], "hi", false⟩ (FetchOutcome.ok (some "42"))
  have h3 := h2.2.1 (by decide)
  refine ⟨h1.1 (by decide), ?_, h3.2⟩
  rw [h3.1]
  rfl

/-- Modelled from the spec: §4.1 boundary characters for chunk snapping —
whitespace or sentence punctuation (the exact heuristic is an open question in
the spec; any whitespace/sentence-boundary set satisfies the contract). -/
def isBoundaryChar (c : Char) : Bool :=
  c.isWhitespace || c == '.' || c == '!' || c == '?'

/-- Search downward from `b` for the largest position `b2` with `lo ≤ b2 ≤ b`
such that the character just before `b2` is a boundary character; `none` when
no boundary lies in that window. -/
def findSnap (text : List Char) (lo : Nat) : Nat → Option Nat
  | 0 => none
  | b + 1 =>
    if b + 1 < lo then none
    else if isBoundaryChar (text.getD b 'a') then some (b + 1)
    else findSnap text lo b

/-- Modelled from the spec: §4.1 Chunker configuration — target window
`chunkSize`, window overlap `chunkOverlap` (valid when `< chunkSize`), and the
boundary-snapping `lookback` distance. -/
structure ChunkerConfig where
  chunkSize : Nat
  chunkOverlap : Nat
  lookback : Nat
  deriving DecidableEq, Repr

/-- Modelled from the spec: §3 a Chunk — ordinal position starting at 0, text
span (start/end offsets into the document's extracted text) and the spanned
text itself. -/
structure Chunk where
  ordinal : Nat
  startPos : Nat
  endPos : Nat
  text : List Char
  deriving DecidableEq, Repr

/-- Modelled from the spec: §4.1 snapped end of the window starting at `p`
with raw end `e0`: the nearest preceding boundary within the `lookback`
distance, but never at or below `p + chunkOverlap` (a cut there would stall
the scan or tear the overlap); hard cut at `e0` when no such boundary exists. -/
def snapEnd (cfg : ChunkerConfig) (text : List Char) (p e0 : Nat) : Nat :=
  match findSnap text (max (e0 - cfg.lookback) (p + cfg.chunkOverlap + 1)) e0 with
  | some b => b
  | none => e0

/-- End position of the chunk whose window starts at `p`: raw end
`min (p + chunkSize) (length text)`, snapped to a boundary unless the window
already reaches the end of the text (the final chunk is never snapped). -/
def chunkEnd (cfg : ChunkerConfig) (text : List Char) (p : Nat) : Nat :=
  let e0 := min (p + cfg.chunkSize) text.length
  if e0 < text.length then snapEnd cfg text p e0 else e0

/-- Modelled from the spec: §4.1 the sliding-window scan, with explicit fuel
(any fuel above `length text` is enough since each step advances the start).
Each step emits the chunk `[p, chunkEnd)` and restarts `chunkOverlap`
characters before that end. -/
def chunkLoopF (cfg : ChunkerConfig) (text : List Char) : Nat → Nat → Nat → List Chunk
  | 0, _, _ => []
  | fuel + 1, ord, p =>
    if text.length ≤ p then []
    else
      let e := chunkEnd cfg text p
      if text.length ≤ e ∨ e ≤ p + cfg.chunkOverlap then
        [⟨ord, p, e, (text.take e).drop p⟩]
      else
        ⟨ord, p, e, (text.take e).drop p⟩ ::
          chunkLoopF cfg text fuel (ord + 1) (e - cfg.chunkOverlap)

/-- Modelled from the spec: §4.1 `Chunker.chunk` — rejects
`chunk_overlap ≥ chunk_size` as a configuration error before any processing,
otherwise runs the sliding-window scan from position 0, ordinal 0. -/
def Chunker.chunk (cfg : ChunkerConfig) (text : List Char) : Except String (List Chunk) :=
  if cfg.chunkSize ≤ cfg.chunkOverlap then
    Except.error "InvalidInputError: chunk_overlap must be smaller than chunk_size"
  else
    Except.ok (chunkLoopF cfg text (text.length + 1) 0 0)

/-- Concatenation of chunk texts with each chunk's leading `overlap`
characters (the region shared with its predecessor) dropped. -/
def reconTail (overlap : Nat) (l : List Chunk) : List Char :=
  (l.map (fun c => c.text.drop overlap)).flatten

/-- Concatenation of the chunk texts with the overlapping regions
deduplicated: the first chunk in full, every later chunk without its leading
`overlap` characters. -/
def recon (overlap : Nat) : List Chunk → List Char
  | [] => []
  | c :: l => c.text ++ reconTail overlap l

theorem findSnap_le (text : List Char) (lo : Nat) :
    ∀ b e, findSnap text lo b = some e → e ≤ b := by
  intro b
  induction b with
  | zero => intro e h; exact absurd h (by simp [findSnap])
  | succ n ih =>
    intro e h
    rw [findSnap] at h
    split at h
    · exact absurd h (by simp)
    · split at h
      · cases h
        exact Nat.le_refl _
      · exact Nat.le_succ_of_le (ih e h)

theorem findSnap_lo (text : List Char) (lo : Nat) :
    ∀ b e, findSnap text lo b = some e → lo ≤ e := by
  intro b
  induction b with
  | zero => intro e h; exact absurd h (by simp [findSnap])
  | succ n ih =>
    intro e h
    rw [findSnap] at h
    split at h
    · exact absurd h (by simp)
    · split at h
      · cases h
        omega
      · exact ih e h

theorem snapEnd_le (cfg : ChunkerConfig) (text : List Char) (p e0 : Nat) :
    snapEnd cfg text p e0 ≤ e0 := by
  unfold snapEnd
  rcases hfs : findSnap text (max (e0 - cfg.lookback) (p + cfg.chunkOverlap + 1)) e0 with _ | b
  · exact Nat.le_refl _
  · exact findSnap_le text _ e0 b hfs

theorem snapEnd_ge (cfg : ChunkerConfig) (text : List Char) (p e0 : Nat)
    (h : p + cfg.chunkOverlap + 1 ≤ e0) :
    p + cfg.chunkOverlap + 1 ≤ snapEnd cfg text p e0 := by
  unfold snapEnd
  rcases hfs : findSnap text (max (e0 - cfg.lookback) (p + cfg.chunkOverlap + 1)) e0 with _ | b
  · exact h
  · have h2 := findSnap_lo text _ e0 b hfs
    exact le_trans (Nat.le_max_right (e0 - cfg.lookback) (p + cfg.chunkOverlap + 1)) h2

theorem chunkEnd_le_length (cfg : ChunkerConfig) (text : List Char) (p : Nat) :
    chunkEnd cfg text p ≤ text.length := by
  unfold chunkEnd
  by_cases h : min (p + cfg.chunkSize) text.length < text.length
  · rw [if_pos h]
    exact le_trans (snapEnd_le cfg text p _) (le_of_lt h)
  · rw [if_neg h]
    exact Nat.min_le_right _ _

theorem chunkEnd_progress (cfg : ChunkerConfig) (text : List Char) (p : Nat)
    (hcfg : cfg.chunkOverlap < cfg.chunkSize) (hlt : chunkEnd cfg text p < text.length) :
    p + cfg.chunkOverlap < chunkEnd cfg text p := by
  unfold chunkEnd at hlt ⊢
  by_cases h : min (p + cfg.chunkSize) text.length < text.length
  · rw [if_pos h] at hlt ⊢
    have he0 : min (p + cfg.chunkSize) text.length = p + cfg.chunkSize := by omega
    rw [he0] at hlt ⊢
    have := snapEnd_ge cfg text p (p + cfg.chunkSize) (by omega)
    omega
  · rw [if_neg h] at hlt
    omega

theorem drop_take_append_drop (l : List Char) (a e : Nat) (ha : a ≤ e) :
    (l.take e).drop a ++ l.drop e = l.drop a := by
  by_cases hl : a ≤ l.length
  · conv_rhs => rw [← List.take_append_drop e l]
    rw [List.drop_append_of_le_length (by simp; omega)]
  · have h1 : (l.take e).drop a = [] := by
      apply List.drop_eq_nil_of_le
      simp
      omega
    have h2 : l.drop e = [] := by
      apply List.drop_eq_nil_of_le
      omega
    have h3 : l.drop a = [] := by
      apply List.drop_eq_nil_of_le
      omega
    rw [h1, h2, h3]
    rfl

theorem reconTail_chunkLoopF (cfg : ChunkerConfig) (text : List Char)
    (hcfg : cfg.chunkOverlap < cfg.chunkSize) :
    ∀ fuel ord p, text.length - p < fuel → p < text.length →
      reconTail cfg.chunkOverlap (chunkLoopF cfg text fuel ord p) =
        text.drop (p + cfg.chunkOverlap) := by
  intro fuel
  induction fuel with
  | zero => intro ord p hf hp; omega
  | succ n ih =>
    intro ord p hf hp
    rw [chunkLoopF]
    rw [if_neg (by omega : ¬ text.length ≤ p)]
    by_cases hbase : text.length ≤ chunkEnd cfg text p ∨
        chunkEnd cfg text p ≤ p + cfg.chunkOverlap
    · rw [if_pos hbase]
      rcases hbase with hb | hb
      · have htake : text.take (chunkEnd cfg text p) = text := List.take_of_length_le hb
        simp only [reconTail, List.map_cons, List.map_nil, List.flatten_cons,
          List.flatten_nil, List.append_nil]
        rw [htake, List.drop_drop]
      · have := chunkEnd_progress cfg text p hcfg
        have hle := chunkEnd_le_length cfg text p
        by_cases hlt : chunkEnd cfg text p < text.length
        · omega
        · -- then text.length = chunkEnd, same as the first case
          have hb2 : text.length ≤ chunkEnd cfg text p := by omega
          have htake : text.take (chunkEnd cfg text p) = text := List.take_of_length_le hb2
          simp only [reconTail, List.map_cons, List.map_nil, List.flatten_cons,
            List.flatten_nil, List.append_nil]
          rw [htake, List.drop_drop]
    · rw [if_neg hbase]
      push_neg at hbase
      obtain ⟨hb1, hb2⟩ := hbase
      have hlt : chunkEnd cfg text p < text.length := by omega
      have hprog : p + cfg.chunkOverlap < chunkEnd cfg text p := by omega
      simp only [reconTail, List.map_cons, List.flatten_cons]
      have hrec := ih (ord + 1) (chunkEnd cfg text p - cfg.chunkOverlap) (by omega) (by omega)
      unfold reconTail at hrec
      rw [hrec, List.drop_drop]
      have heq : chunkEnd cfg text p - cfg.chunkOverlap + cfg.chunkOverlap =
          chunkEnd cfg text p := by omega
      rw [heq]
      exact drop_take_append_drop text (p + cfg.chunkOverlap) (chunkEnd cfg text p) (by omega)

theorem recon_chunkLoopF (cfg : ChunkerConfig) (text : List Char)
    (hcfg : cfg.chunkOverlap < cfg.chunkSize) :
    recon cfg.chunkOverlap (chunkLoopF cfg text (text.length + 1) 0 0) = text := by
  by_cases h0 : text.length = 0
  · have : text = [] := List.length_eq_zero.mp h0
    subst this
    rfl
  · rw [chunkLoopF]
    rw [if_neg (by omega : ¬ text.length ≤ 0)]
    by_cases hbase : text.length ≤ chunkEnd cfg text 0 ∨
        chunkEnd cfg text 0 ≤ 0 + cfg.chunkOverlap
    · rw [if_pos hbase]
      have hle := chunkEnd_le_length cfg text 0
      have hb : text.length ≤ chunkEnd cfg text 0 := by
        rcases hbase with hb | hb
        · exact hb
        · by_cases hlt : chunkEnd cfg text 0 < text.length
          · have := chunkEnd_progress cfg text 0 hcfg hlt
            omega
          · omega
      have htake : text.take (chunkEnd cfg text 0) = text := List.take_of_length_le hb
      simp only [recon, reconTail, List.map_nil, List.flatten_nil, List.append_nil]
      rw [htake, List.drop_zero]
    · rw [if_neg hbase]
      push_neg at hbase
      obtain ⟨hb1, hb2⟩ := hbase
      simp only [recon]
      have hrec := reconTail_chunkLoopF cfg text hcfg text.length (0 + 1)
        (chunkEnd cfg text 0 - cfg.chunkOverlap) (by omega) (by omega)
      rw [hrec]
      have heq : chunkEnd cfg text 0 - cfg.chunkOverlap + cfg.chunkOverlap =
          chunkEnd cfg text 0 := by omega
      rw [heq, List.drop_zero]
      exact List.take_append_drop (chunkEnd cfg text 0) text

/-- C4: for every text and every valid chunking configuration
(`chunk_overlap < chunk_size`), `Chunker.chunk` succeeds and its chunks,
concatenated with the overlapping regions deduplicated, reconstruct the
original text exactly; for the empty text the result is the empty sequence
rather than a failure. -/
theorem chunker_reconstruction (cfg : ChunkerConfig) (text : List Char)
    (hcfg : cfg.chunkOverlap < cfg.chunkSize) :
    ∃ chunks, Chunker.chunk cfg text = Except.ok chunks ∧
      recon cfg.chunkOverlap chunks = text ∧ (text = [] → chunks = []) := by
  refine ⟨chunkLoopF cfg text (text.length + 1) 0 0, ?_, recon_chunkLoopF cfg text hcfg, ?_⟩
  · unfold Chunker.chunk
    rw [if_neg (by omega : ¬ cfg.chunkSize ≤ cfg.chunkOverlap)]
  · intro h
    subst h
    rfl

/-- Witness for C4 on a concrete text and configuration. -/
theorem chunker_reconstruction_witness :
    ∃ chunks, Chunker.chunk ⟨5, 2, 2⟩ "hello world".data = Except.ok chunks ∧
      recon 2 chunks = "hello world".data ∧ ("hello world".data = [] → chunks = []) :=
  chunker_reconstruction ⟨5, 2, 2⟩ "hello world".data (by decide)

/-- Modelled from the spec: §3 a Vector — ordered sequence of numbers (the
reference floats are modelled as rationals). -/
abbrev Vec := List ℚ

/-- Dot product of two vectors (componentwise product over the common length,
summed). -/
def dotL (u v : Vec) : ℚ := (List.zipWith (fun a b => a * b) u v).sum

theorem dotL_self_nonneg (v : Vec) : 0 ≤ dotL v v := by
  induction v with
  | nil => simp [dotL]
  | cons a l ih =>
    simp only [dotL, List.zipWith_cons_cons, List.sum_cons]
    have := mul_self_nonneg a
    unfold dotL at ih
    nlinarith

theorem cs_step (a b S A B : ℚ) (hS : S ^ 2 ≤ A * B) (hA : 0 ≤ A) (hB : 0 ≤ B) :
    (a * b + S) ^ 2 ≤ (a * a + A) * (b * b + B) := by
  by_cases hAB : A + B = 0
  · have hA0 : A = 0 := by linarith
    have hB0 : B = 0 := by linarith
    have hS0 : S = 0 := by nlinarith [sq_nonneg S]
    subst hA0; subst hB0; subst hS0
    nlinarith [sq_nonneg (a * b)]
  · have hpos : 0 < A + B := lt_of_le_of_ne (by linarith) (Ne.symm hAB)
    nlinarith [sq_nonneg (a * B - b * S), sq_nonneg (b * A - a * S),
      mul_nonneg (sq_nonneg a) (sub_nonneg.2 hS), mul_nonneg (sq_nonneg b) (sub_nonneg.2 hS),
      mul_nonneg (le_of_lt hpos) (sub_nonneg.2 hS), hpos]

/-- Cauchy–Schwarz for list dot products. -/
theorem dotL_cauchy_schwarz (u v : Vec) : (dotL u v) ^ 2 ≤ dotL u u * dotL v v := by
  induction u generalizing v with
  | nil => simp [dotL]
  | cons a u ih =>
    cases v with
    | nil => simp [dotL]
    | cons b v =>
      simp only [dotL, List.zipWith_cons_cons, List.sum_cons] at *
      exact cs_step a b _ _ _ (ih v)
        (by have := dotL_self_nonneg u; unfold dotL at this; exact this)
        (by have := dotL_self_nonneg v; unfold dotL at this; exact this)

/-- Sign-preserving square. -/
def signedSq (x : ℚ) : ℚ := if x < 0 then -(x ^ 2) else x ^ 2

/-- Modelled from the spec: §4.3 the similarity score — cosine similarity
between query and stored vector.  To stay inside ℚ (cosine itself needs a
square root) the score is represented as the sign-preserving squared cosine
`sign(q·v) · (q·v)² / ((q·q)(v·v))`, a strictly monotone image of cosine:
same ordering, same ties, same [-1, 1] range, and self-similarity exactly 1. -/
def simScore (q v : Vec) : ℚ := signedSq (dotL q v) / (dotL q q * dotL v v)

theorem abs_signedSq (x : ℚ) : |signedSq x| = x ^ 2 := by
  unfold signedSq
  split
  · rw [abs_neg, abs_of_nonneg (sq_nonneg x)]
  · exact abs_of_nonneg (sq_nonneg x)

/-- Every similarity score lies in [-1, 1]. -/
theorem simScore_bounds (q v : Vec) : -1 ≤ simScore q v ∧ simScore q v ≤ 1 := by
  unfold simScore
  rcases (mul_nonneg (dotL_self_nonneg q) (dotL_self_nonneg v)).lt_or_eq with hD | hD
  · have habs : |signedSq (dotL q v)| ≤ dotL q q * dotL v v := by
      rw [abs_signedSq]
      exact dotL_cauchy_schwarz q v
    constructor
    · rw [le_div_iff₀ hD]
      have h1 := neg_abs_le (signedSq (dotL q v))
      linarith
    · rw [div_le_one hD]
      exact le_trans (le_abs_self _) habs
  · rw [← hD, div_zero]
    norm_num

/-- Self-similarity of a nonzero vector is exactly 1. -/
theorem simScore_self (v : Vec) (h : dotL v v ≠ 0) : simScore v v = 1 := by
  unfold simScore signedSq
  rw [if_neg (not_lt.2 (dotL_self_nonneg v)), pow_two]
  exact div_self (mul_ne_zero h h)

/-- Modelled from the spec: §3 an IndexEntry — a chunk identifier plus
metadata (document id, text span, source filename) paired with its vector. -/
structure IndexEntry where
  chunkId : String
  docId : String
  spanStart : Nat
  spanEnd : Nat
  sourceFilename : String
  vector : Vec
  deriving DecidableEq, Repr

/-- Modelled from the spec: §4.3 the VectorIndex — a configured dimension and
the stored entries in insertion order. -/
structure VectorIndex where
  dim : Nat
  entries : List IndexEntry
  deriving DecidableEq, Repr

/-- Modelled from the spec: §4.3 `upsert` — appends the whole batch in order,
rejecting the whole batch (without applying any of it) if any entry's vector
dimension mismatches the index dimension. -/
def VectorIndex.upsert (idx : VectorIndex) (batch : List IndexEntry) :
    Except String VectorIndex :=
  if batch.all (fun e => e.vector.length == idx.dim) then
    Except.ok { idx with entries := idx.entries ++ batch }
  else
    Except.error "IndexConsistencyError: vector dimension mismatch"

/-- The index state after an `upsert` call: the new state on success, the old
state unchanged when the batch was rejected. -/
def VectorIndex.applyUpsert (idx : VectorIndex) (batch : List IndexEntry) : VectorIndex :=
  match idx.upsert batch with
  | Except.ok idx2 => idx2
  | Except.error _ => idx

/-- Modelled from the spec: §4.3 `delete(document_id)` — removes all entries
belonging to a document. -/
def VectorIndex.deleteDoc (idx : VectorIndex) (docId : String) : VectorIndex :=
  { idx with entries := idx.entries.filter (fun e => !(e.docId == docId)) }

/-- An entry of a RetrievalResult: chunk metadata with its similarity score. -/
structure ScoredEntry where
  entry : IndexEntry
  score : ℚ
  deriving DecidableEq, Repr

/-- Descending-score order used by `search`: `a` may precede `b` exactly when
`b.score ≤ a.score`. -/
def scoreGe (a b : ScoredEntry) : Prop := b.score ≤ a.score

instance : DecidableRel scoreGe := fun a b => inferInstanceAs (Decidable (b.score ≤ a.score))

instance : IsTotal ScoredEntry scoreGe := ⟨fun a b => le_total b.score a.score⟩

instance : IsTrans ScoredEntry scoreGe := ⟨fun _ _ _ h1 h2 => le_trans h2 h1⟩

/-- The eligible entries of an index for a query and filter, in insertion
order, each paired with its similarity score. -/
def scoredEligible (idx : VectorIndex) (q : Vec) (flt : IndexEntry → Bool) : List ScoredEntry :=
  (idx.entries.filter flt).map (fun e => ⟨e, simScore q e.vector⟩)

/-- Modelled from the spec: §4.3 `search` — brute-force exact baseline: score
every eligible entry, stable-sort descending by score (ties keep insertion
order), return the first `topK`. -/
def VectorIndex.search (idx : VectorIndex) (q : Vec) (topK : Nat)
    (flt : IndexEntry → Bool) : List ScoredEntry :=
  (List.insertionSort scoreGe (scoredEligible idx q flt)).take topK

/-- C2: for every index state, query vector and `top_k > 0`, `search` returns
at most `top_k` results, sorted in descending order of similarity score, and
when the index holds fewer than `top_k` entries eligible under the filter the
result contains exactly all of the eligible entries (as a permutation, in
score order). -/
theorem search_topk_sorted (idx : VectorIndex) (q : Vec) (topK : Nat)
    (flt : IndexEntry → Bool) (hk : 0 < topK) :
    (idx.search q topK flt).length ≤ topK ∧
    List.Sorted scoreGe (idx.search q topK flt) ∧
    ((idx.entries.filter flt).length < topK →
      List.Perm ((idx.search q topK flt).map (fun s => s.entry))
        (idx.entries.filter flt)) := by
  refine ⟨?_, ?_, ?_⟩
  · rw [VectorIndex.search, List.length_take]
    exact Nat.min_le_left _ _
  · exact (List.sorted_insertionSort scoreGe _).sublist (List.take_sublist _ _)
  · intro hlt
    have hlen : (List.insertionSort scoreGe (scoredEligible idx q flt)).length =
        (idx.entries.filter flt).length := by
      rw [List.length_insertionSort, scoredEligible, List.length_map]
    have htake : idx.search q topK flt =
        List.insertionSort scoreGe (scoredEligible idx q flt) := by
      rw [VectorIndex.search]
      exact List.take_of_length_le (by omega)
    rw [htake]
    have hperm : List.Perm (List.insertionSort scoreGe (scoredEligible idx q flt))
        (scoredEligible idx q flt) := List.perm_insertionSort scoreGe _
    have hmm : List.map (fun s : ScoredEntry => s.entry) (scoredEligible idx q flt) =
        idx.entries.filter flt := by
      rw [scoredEligible, List.map_map]
      exact List.map_id (idx.entries.filter flt)
    have hperm2 := hperm.map (fun s : ScoredEntry => s.entry)
    rw [hmm] at hperm2
    exact hperm2

/-- Witness for C2: a one-entry index queried with `top_k = 2` returns its
whole (single-element, trivially sorted) entry set. -/
theorem search_topk_sorted_witness :
    (VectorIndex.search ⟨1, [⟨"c0", "d0", 0, 1, "f.pdf", [1]⟩]⟩ [1] 2
      (fun _ => true)).length ≤ 2 ∧
    List.Sorted scoreGe (VectorIndex.search ⟨1, [⟨"c0", "d0", 0, 1, "f.pdf", [1]⟩]⟩ [1] 2
      (fun _ => true)) ∧
    List.Perm ((VectorIndex.search ⟨1, [⟨"c0", "d0", 0, 1, "f.pdf", [1]⟩]⟩ [1] 2
        (fun _ => true)).map (fun s => s.entry))
      ((⟨1, [⟨"c0", "d0", 0, 1, "f.pdf", [1]⟩]⟩ : VectorIndex).entries.filter
        (fun _ => true)) := by
  have h := search_topk_sorted ⟨1, [⟨"c0", "d0", 0, 1, "f.pdf", [1]⟩]⟩ [1] 2
    (fun _ => true) (by decide)
  exact ⟨h.1, h.2.1, h.2.2 (by decide)⟩

/-- C3: a batch containing any entry whose vector dimension differs from the
index dimension is rejected as a whole: `upsert` returns an error and the
index state is unchanged, so no entry of the batch (correctly dimensioned
ones included) is persisted. -/
theorem upsert_rejects_whole_batch (idx : VectorIndex) (batch : List IndexEntry)
    (h : ∃ e ∈ batch, e.vector.length ≠ idx.dim) :
    (∃ msg, idx.upsert batch = Except.error msg) ∧
    idx.applyUpsert batch = idx := by
  have hall : batch.all (fun e => e.vector.length == idx.dim) = false := by
    obtain ⟨e, he, hne⟩ := h
    rw [List.all_eq_false]
    exact ⟨e, he, by simpa using hne⟩
  constructor
  · exact ⟨_, by rw [VectorIndex.upsert, hall]; rfl⟩
  · rw [VectorIndex.applyUpsert, VectorIndex.upsert, hall]
    rfl

/-- Witness for C3: a batch with one correctly dimensioned entry and one
wrongly dimensioned entry leaves a dimension-2 index unchanged. -/
theorem upsert_rejects_whole_batch_witness :
    (∃ msg, VectorIndex.upsert ⟨2, []⟩ [⟨"c0", "d0", 0, 1, "f.pdf", [1, 0]⟩,
      ⟨"c1", "d0", 1, 2, "f.pdf", [1]⟩] = Except.error msg) ∧
    VectorIndex.applyUpsert ⟨2, []⟩ [⟨"c0", "d0", 0, 1, "f.pdf", [1, 0]⟩,
      ⟨"c1", "d0", 1, 2, "f.pdf", [1]⟩] = ⟨2, []⟩ :=
  upsert_rejects_whole_batch ⟨2, []⟩ [⟨"c0", "d0", 0, 1, "f.pdf", [1, 0]⟩,
    ⟨"c1", "d0", 1, 2, "f.pdf", [1]⟩]
    ⟨⟨"c1", "d0", 1, 2, "f.pdf", [1]⟩, by decide, by decide⟩

/-- C6: search is deterministic — two calls on the same index state with
identical query vector, `top_k` and filter return identical results — and
tie-breaking is stable: for every score value, the result's entries with that
score form a subsequence of the eligible entries in original insertion
order. -/
theorem search_deterministic_stable (idx : VectorIndex) (q q2 : Vec) (k k2 : Nat)
    (f f2 : IndexEntry → Bool) (hq : q = q2) (hk : k = k2) (hf : f = f2) :
    idx.search q k f = idx.search q2 k2 f2 ∧
    ∀ s : ℚ, List.Sublist
      ((idx.search q k f).filter (fun x => decide (x.score = s)))
      ((scoredEligible idx q f).filter (fun x => decide (x.score = s))) := by
  subst hq
  subst hk
  subst hf
  refine ⟨rfl, ?_⟩
  intro s
  have hall : ∀ x ∈ (scoredEligible idx q f).filter (fun x => decide (x.score = s)),
      x.score = s := fun x hx => of_decide_eq_true (List.mem_filter.mp hx).2
  have hpair : ((scoredEligible idx q f).filter (fun x => decide (x.score = s))).Pairwise
      scoreGe := by
    apply List.pairwise_of_forall_mem_list
    intro a ha b hb
    unfold scoreGe
    rw [hall a ha, hall b hb]
  have h1 : List.Sublist ((scoredEligible idx q f).filter (fun x => decide (x.score = s)))
      (List.insertionSort scoreGe (scoredEligible idx q f)) :=
    List.sublist_insertionSort hpair (List.filter_sublist _)
  have hself : (((scoredEligible idx q f).filter (fun x => decide (x.score = s))).filter
      (fun x => decide (x.score = s))) =
      (scoredEligible idx q f).filter (fun x => decide (x.score = s)) := by
    rw [List.filter_eq_self]
    exact fun a ha => (List.mem_filter.mp ha).2
  have h2 : List.Sublist ((scoredEligible idx q f).filter (fun x => decide (x.score = s)))
      ((List.insertionSort scoreGe (scoredEligible idx q f)).filter
        (fun x => decide (x.score = s))) := by
    have := h1.filter (fun x => decide (x.score = s))
    rwa [hself] at this
  have hlen : ((List.insertionSort scoreGe (scoredEligible idx q f)).filter
      (fun x => decide (x.score = s))).length =
      ((scoredEligible idx q f).filter (fun x => decide (x.score = s))).length :=
    ((List.perm_insertionSort scoreGe (scoredEligible idx q f)).filter _).length_eq
  have h3 : (scoredEligible idx q f).filter (fun x => decide (x.score = s)) =
      (List.insertionSort scoreGe (scoredEligible idx q f)).filter
        (fun x => decide (x.score = s)) :=
    h2.eq_of_length hlen.symm
  have h4 := (List.take_sublist k
    (List.insertionSort scoreGe (scoredEligible idx q f))).filter
    (fun x => decide (x.score = s))
  rw [← h3] at h4
  exact h4

/-- Witness for C6 on a concrete two-entry index with tied scores. -/
theorem search_deterministic_stable_witness :
    VectorIndex.search ⟨1, [⟨"c0", "d0", 0, 1, "f.pdf", [1]⟩,
        ⟨"c1", "d0", 1, 2, "f.pdf", [1]⟩]⟩ [1] 1 (fun _ => true) =
      VectorIndex.search ⟨1, [⟨"c0", "d0", 0, 1, "f.pdf", [1]⟩,
        ⟨"c1", "d0", 1, 2, "f.pdf", [1]⟩]⟩ [1] 1 (fun _ => true) ∧
    List.Sublist
      ((VectorIndex.search ⟨1, [⟨"c0", "d0", 0, 1, "f.pdf", [1]⟩,
          ⟨"c1", "d0", 1, 2, "f.pdf", [1]⟩]⟩ [1] 1 (fun _ => true)).filter
        (fun x => decide (x.score = 1)))
      ((scoredEligible ⟨1, [⟨"c0", "d0", 0, 1, "f.pdf", [1]⟩,
          ⟨"c1", "d0", 1, 2, "f.pdf", [1]⟩]⟩ [1] (fun _ => true)).filter
        (fun x => decide (x.score = 1))) := by
  have h := search_deterministic_stable ⟨1, [⟨"c0", "d0", 0, 1, "f.pdf", [1]⟩,
    ⟨"c1", "d0", 1, 2, "f.pdf", [1]⟩]⟩ [1] [1] 1 1 (fun _ => true) (fun _ => true) rfl rfl rfl
  exact ⟨h.1, h.2 1⟩

theorem scoredEligible_bounds (idx : VectorIndex) (q : Vec) (flt : IndexEntry → Bool) :
    ∀ x ∈ scoredEligible idx q flt, -1 ≤ x.score ∧ x.score ≤ 1 := by
  intro x hx
  obtain ⟨e2, _, rfl⟩ := List.mem_map.mp hx
  exact simScore_bounds q e2.vector

/-- C5 counterexample: the round-trip claim fails "for every index state" —
when the index already holds an earlier entry with the same vector, the stable
descending sort puts that earlier entry (cosine 1 as well) first, so the
freshly upserted entry is not the first result. -/
theorem roundtrip_counterexample :
    ∃ idx2,
      VectorIndex.upsert ⟨1, [⟨"chunk-0", "docA", 0, 1, "a.pdf", [1]⟩]⟩
          [⟨"chunk-1", "docB", 0, 1, "b.pdf", [1]⟩] = Except.ok idx2 ∧
      (idx2.search [1] 1 (fun _ => true)).map (fun x => x.entry) =
        [⟨"chunk-0", "docA", 0, 1, "a.pdf", [1]⟩] ∧
      (⟨"chunk-0", "docA", 0, 1, "a.pdf", [1]⟩ : IndexEntry) ≠
        ⟨"chunk-1", "docB", 0, 1, "b.pdf", [1]⟩ := by
  refine ⟨⟨1, [⟨"chunk-0", "docA", 0, 1, "a.pdf", [1]⟩,
    ⟨"chunk-1", "docB", 0, 1, "b.pdf", [1]⟩]⟩, rfl, ?_, by decide⟩
  simp [VectorIndex.search, scoredEligible, List.insertionSort, List.orderedInsert, scoreGe]

/-- C5 (amended): upserting an entry `e` with a correctly dimensioned nonzero
vector and searching with `e`'s own vector (`top_k > 0`, no filter) yields a
first result whose similarity score is exactly 1 (cosine self-similarity),
with all scores lying in [-1, 1]; and **provided no earlier entry of the index
scores 1 against this query** (e.g. no parallel vector was stored before),
that first result is `e` itself. -/
theorem roundtrip_self_scores (idx : VectorIndex) (e : IndexEntry) (k : Nat)
    (hdim : e.vector.length = idx.dim) (hnz : dotL e.vector e.vector ≠ 0) (hk : 0 < k) :
    ∃ idx2, idx.upsert [e] = Except.ok idx2 ∧
      (∃ top rest, idx2.search e.vector k (fun _ => true) = top :: rest ∧ top.score = 1) ∧
      (∀ x ∈ idx2.search e.vector k (fun _ => true), -1 ≤ x.score ∧ x.score ≤ 1) ∧
      ((∀ e2 ∈ idx.entries, simScore e.vector e2.vector ≠ 1) →
        ∃ rest, idx2.search e.vector k (fun _ => true) =
          ⟨e, (1 : ℚ)⟩ :: rest) := by
  refine ⟨{ idx with entries := idx.entries ++ [e] }, ?_, ?_⟩
  · rw [VectorIndex.upsert, if_pos (by simp [hdim])]
  set idx2 : VectorIndex := { idx with entries := idx.entries ++ [e] } with hidx2
  set L := scoredEligible idx2 e.vector (fun _ => true) with hLdef
  have hL : L = (idx.entries ++ [e]).map
      (fun x => (⟨x, simScore e.vector x.vector⟩ : ScoredEntry)) := by
    rw [hLdef, scoredEligible, List.filter_true]
  have hmem : (⟨e, (1 : ℚ)⟩ : ScoredEntry) ∈ L := by
    rw [hL]
    refine List.mem_map.mpr ⟨e, List.mem_append_right _ (List.mem_singleton_self e), ?_⟩
    rw [simScore_self e.vector hnz]
  have hmemsort : (⟨e, (1 : ℚ)⟩ : ScoredEntry) ∈ List.insertionSort scoreGe L :=
    (List.mem_insertionSort scoreGe).mpr hmem
  have hLbounds : ∀ x ∈ L, -1 ≤ x.score ∧ x.score ≤ 1 := by
    rw [hLdef]
    exact scoredEligible_bounds idx2 e.vector (fun _ => true)
  obtain ⟨top, t, hsort⟩ : ∃ top t, List.insertionSort scoreGe L = top :: t := by
    rcases hs : List.insertionSort scoreGe L with _ | ⟨top, t⟩
    · rw [hs] at hmemsort
      exact absurd hmemsort (List.not_mem_nil _)
    · exact ⟨top, t, rfl⟩
  obtain ⟨k1, rfl⟩ : ∃ k1, k = k1 + 1 := ⟨k - 1, by omega⟩
  have hsearch : idx2.search e.vector (k1 + 1) (fun _ => true) = top :: t.take k1 := by
    rw [VectorIndex.search, ← hLdef, hsort]
    rfl
  have htop_mem_L : top ∈ L := by
    have : top ∈ List.insertionSort scoreGe L := by
      rw [hsort]
      exact List.mem_cons_self top t
    exact (List.mem_insertionSort scoreGe).mp this
  have hsorted := List.sorted_insertionSort scoreGe L
  rw [hsort] at hsorted
  have htop1 : top.score = 1 := by
    have hle : top.score ≤ 1 := (hLbounds top htop_mem_L).2
    have hge : (1 : ℚ) ≤ top.score := by
      rw [hsort] at hmemsort
      rcases List.mem_cons.mp hmemsort with heq | hmt
      · rw [← heq]
      · exact List.rel_of_sorted_cons hsorted _ hmt
    linarith
  refine ⟨⟨top, t.take k1, hsearch, htop1⟩, ?_, ?_⟩
  · intro x hx
    rw [hsearch] at hx
    apply hLbounds
    rcases List.mem_cons.mp hx with heq | hmt
    · rw [heq]
      exact htop_mem_L
    · have : x ∈ t := List.take_subset k1 t hmt
      have : x ∈ List.insertionSort scoreGe L := by
        rw [hsort]
        exact List.mem_cons_of_mem top this
      exact (List.mem_insertionSort scoreGe).mp this
  · intro hno
    refine ⟨t.take k1, ?_⟩
    rw [hsearch]
    have htopL := htop_mem_L
    rw [hL] at htopL
    obtain ⟨x, hxmem, hxeq⟩ := List.mem_map.mp htopL
    have hxscore : simScore e.vector x.vector = 1 := by
      rw [← htop1, ← hxeq]
    have hxe : x = e := by
      rcases List.mem_append.mp hxmem with hold | hsing
      · exact absurd hxscore (hno x hold)
      · exact List.mem_singleton.mp hsing
    have : top = ⟨e, (1 : ℚ)⟩ := by
      rw [← hxeq, hxe, simScore_self e.vector hnz]
    rw [this]

/-- Witness for C5 (amended): upserting a unit entry into an empty index and
searching with its own vector returns it first with score exactly 1. -/
theorem roundtrip_self_scores_witness :
    ∃ idx2, VectorIndex.upsert ⟨1, []⟩ [⟨"c0", "d0", 0, 1, "f.pdf", [1]⟩] =
        Except.ok idx2 ∧
      (∃ top rest, idx2.search [1] 1 (fun _ => true) = top :: rest ∧ top.score = 1) ∧
      (∀ x ∈ idx2.search [1] 1 (fun _ => true), -1 ≤ x.score ∧ x.score ≤ 1) ∧
      (∃ rest, idx2.search [1] 1 (fun _ => true) =
        ⟨⟨"c0", "d0", 0, 1, "f.pdf", [1]⟩, (1 : ℚ)⟩ :: rest) := by
  obtain ⟨idx2, h1, h2, h3, h4⟩ := roundtrip_self_scores ⟨1, []⟩
    ⟨"c0", "d0", 0, 1, "f.pdf", [1]⟩ 1 (by decide) (by simp [dotL]) (by decide)
  exact ⟨idx2, h1, h2, h3, h4 (by simp)⟩

/-- Modelled from the spec: §4.2/§9 the embedding backend capability — a fixed
dimension `dim`, a maximum input length, a deterministic per-text embedding
(spec §4.2 determinism), and a transport-failure predicate on batch calls;
every produced vector has dimension `dim`. -/
structure EmbedBackend where
  dim : Nat
  maxInputLen : Nat
  embedOne : String → Vec
  fails : List String → Bool
  embedOne_dim : ∀ t, (embedOne t).length = dim

/-- Split a list into consecutive batches of `n` (all of it at once when the
fuel or `n` degenerate); concatenating the batches restores the list. -/
def batched {α : Type} (n : Nat) : Nat → List α → List (List α)
  | _, [] => []
  | 0, l => [l]
  | fuel + 1, l => l.take n :: batched n fuel (l.drop n)

theorem flatten_batched {α : Type} (n : Nat) :
    ∀ fuel (l : List α), (batched n fuel l).flatten = l := by
  intro fuel
  induction fuel with
  | zero =>
    intro l
    cases l with
    | nil => rfl
    | cons a t => simp [batched]
  | succ m ih =>
    intro l
    cases l with
    | nil => rfl
    | cons a t =>
      simp only [batched, List.flatten_cons, ih]
      exact List.take_append_drop n (a :: t)

/-- One backend batch call: fails atomically on transport error, otherwise
returns one vector per text in order. -/
def runBackend (be : EmbedBackend) (batch : List String) : Except String (List Vec) :=
  if be.fails batch then Except.error "EmbeddingBackendError" else Except.ok (batch.map be.embedOne)

/-- Run the backend over every batch in order, concatenating the results; any
failing batch fails the whole call. -/
def embedBatches (be : EmbedBackend) : List (List String) → Except String (List Vec)
  | [] => Except.ok []
  | b :: bs =>
    match runBackend be b, embedBatches be bs with
    | Except.ok vs, Except.ok rest => Except.ok (vs ++ rest)
    | Except.error m, _ => Except.error m
    | _, Except.error m => Except.error m

/-- Modelled from the spec: §4.2 `Embedder.embed` — rejects empty or oversized
input texts (`InvalidInputError`), then embeds the texts in batches of
`batchSize`; a partial backend failure fails the whole call. -/
def Embedder.embed (be : EmbedBackend) (batchSize : Nat) (texts : List String) :
    Except String (List Vec) :=
  if texts.any (fun t => t.isEmpty || decide (be.maxInputLen < t.length)) then
    Except.error "InvalidInputError"
  else
    embedBatches be (batched batchSize texts.length texts)

theorem embedBatches_ok (be : EmbedBackend) :
    ∀ bl vs, embedBatches be bl = Except.ok vs → vs = bl.flatten.map be.embedOne := by
  intro bl
  induction bl with
  | nil =>
    intro vs h
    cases h
    rfl
  | cons b bs ih =>
    intro vs h
    rw [embedBatches] at h
    rcases h1 : runBackend be b with m | vb <;>
      rcases h2 : embedBatches be bs with m2 | vrest <;>
      rw [h1, h2] at h
    · cases h
    · cases h
    · cases h
    · cases h
      have hvb : vb = b.map be.embedOne := by
        rw [runBackend] at h1
        by_cases hf : be.fails b
        · rw [if_pos hf] at h1
          cases h1
        · rw [if_neg hf] at h1
          cases h1
          rfl
      rw [hvb, ih vrest h2, List.flatten_cons, List.map_append]

/-- C7: `Embedder.embed` is all-or-nothing — it either fails as a whole, or
succeeds returning exactly one vector per input text, in input order (the
result is precisely the input list mapped through the backend's per-text
embedding), each of the backend's fixed dimension; no partial vector list is
ever returned. -/
theorem embed_all_or_nothing (be : EmbedBackend) (batchSize : Nat) (texts : List String) :
    (∃ msg, Embedder.embed be batchSize texts = Except.error msg) ∨
    (Embedder.embed be batchSize texts = Except.ok (texts.map be.embedOne) ∧
      (texts.map be.embedOne).length = texts.length ∧
      ∀ v ∈ texts.map be.embedOne, v.length = be.dim) := by
  rw [Embedder.embed]
  by_cases hval : texts.any (fun t => t.isEmpty || decide (be.maxInputLen < t.length))
  · rw [if_pos hval]
    exact Or.inl ⟨_, rfl⟩
  · rw [if_neg hval]
    rcases h : embedBatches be (batched batchSize texts.length texts) with m | vs
    · exact Or.inl ⟨m, rfl⟩
    · refine Or.inr ⟨?_, List.length_map _ _, ?_⟩
      · have := embedBatches_ok be _ vs h
        rw [flatten_batched] at this
        rw [this]
      · intro v hv
        obtain ⟨t, _, rfl⟩ := List.mem_map.mp hv
        exact be.embedOne_dim t

/-- Modelled from the spec: §6 the generation backend capability
`generate(prompt, config) -> text`, which can fail with a backend error. -/
structure GenBackend where
  generate : String → Except String String

/-- Failure modes of the AnswerComposer named in the spec's error taxonomy. -/
inductive ComposerError where
  | generationBackendError (msg : String)
  | insufficientContextError
  deriving DecidableEq, Repr

/-- Modelled from the spec: §3 an Answer — generated text plus the ordered
source chunk metadata used to produce it. -/
structure Answer where
  text : String
  sources : List IndexEntry
  deriving DecidableEq, Repr

/-- Modelled from the spec: §4.5 the fixed grounding instruction — answer only
from provided context and say so explicitly when the context is
insufficient. -/
def groundingInstruction : String :=
  "Answer only from the provided context. If the context is insufficient, say so explicitly."

/-- A retrieved passage rendered with its citation marker. -/
def renderPassage (p : Nat × ScoredEntry) : String :=
  "[" ++ toString (p.1 + 1) ++ "] (" ++ p.2.entry.sourceFilename ++ ", chunk " ++
    p.2.entry.chunkId ++ ")\n"

/-- Modelled from the spec: §4.5 the grounded prompt — the fixed instruction,
the ordered retrieved passages each tagged with a citation marker, then the
user's question (the §4.5 token-budget truncation is not modelled; no claim
depends on it). -/
def buildPrompt (query : String) (retrieval : List ScoredEntry) : String :=
  groundingInstruction ++ "\n\n" ++
    String.join (retrieval.enum.map renderPassage) ++ "\nQuestion: " ++ query

/-- Modelled from the spec: §4.5 `AnswerComposer.answer` — builds the grounded
prompt, invokes the generation backend once, maps backend failure to
`GenerationBackendError`, and returns whatever text the backend produced
(including a stated-uncertainty answer) as a normal Answer. -/
def AnswerComposer.answer (gb : GenBackend) (query : String)
    (retrieval : List ScoredEntry) : Except ComposerError Answer :=
  match gb.generate (buildPrompt query retrieval) with
  | Except.error m => Except.error (ComposerError.generationBackendError m)
  | Except.ok txt => Except.ok ⟨txt, retrieval.map (fun s => s.entry)⟩

/-- C8: `AnswerComposer.answer` never signals `InsufficientContextError` — for
every backend, query and retrieval (including one whose passages do not
support the question) the only possible failure is `GenerationBackendError`,
the prompt opens with the instruction to state uncertainty on insufficient
context, and whatever text the instructed backend produces is returned as a
normal Answer. -/
theorem composer_never_insufficient (gb : GenBackend) (query : String)
    (retrieval : List ScoredEntry) :
    AnswerComposer.answer gb query retrieval ≠
      Except.error ComposerError.insufficientContextError ∧
    (∀ err, AnswerComposer.answer gb query retrieval = Except.error err →
      ∃ m, err = ComposerError.generationBackendError m) ∧
    (∃ rest, buildPrompt query retrieval = groundingInstruction ++ rest) ∧
    (∀ txt, gb.generate (buildPrompt query retrieval) = Except.ok txt →
      AnswerComposer.answer gb query retrieval =
        Except.ok ⟨txt, retrieval.map (fun s => s.entry)⟩) := by
  refine ⟨?_, ?_, ⟨"\n\n" ++ String.join (retrieval.enum.map renderPassage) ++
    "\nQuestion: " ++ query, by rw [buildPrompt]; simp [String.append_assoc]⟩, ?_⟩
  · rw [AnswerComposer.answer]
    rcases h : gb.generate (buildPrompt query retrieval) with m | txt
    · intro hc
      cases hc
    · intro hc
      cases hc
  · intro err herr
    rw [AnswerComposer.answer] at herr
    rcases h : gb.generate (buildPrompt query retrieval) with m | txt <;> rw [h] at herr
    · cases herr
      exact ⟨m, rfl⟩
    · cases herr
  · intro txt h
    rw [AnswerComposer.answer, h]

/-- Witness for C8 at a concrete backend that reports insufficient context in
natural language: the uncertainty text comes back as a normal Answer. -/
theorem composer_never_insufficient_witness :
    AnswerComposer.answer ⟨fun _ => Except.ok "I do not have enough context to answer."⟩
        "What is the capital of France?" [] ≠
      Except.error ComposerError.insufficientContextError ∧
    AnswerComposer.answer ⟨fun _ => Except.ok "I do not have enough context to answer."⟩
        "What is the capital of France?" [] =
      Except.ok ⟨"I do not have enough context to answer.", []⟩ := by
  have h := composer_never_insufficient
    ⟨fun _ => Except.ok "I do not have enough context to answer."⟩
    "What is the capital of France?" []
  exact ⟨h.1, h.2.2.2 "I do not have enough context to answer." rfl⟩

theorem embed_ok_eq (be : EmbedBackend) (batchSize : Nat) (texts : List String)
    (vs : List Vec) (h : Embedder.embed be batchSize texts = Except.ok vs) :
    vs = texts.map be.embedOne := by
  rw [Embedder.embed] at h
  by_cases hval : texts.any (fun t => t.isEmpty || decide (be.maxInputLen < t.length))
  · rw [if_pos hval] at h
    cases h
  · rw [if_neg hval] at h
    have := embedBatches_ok be _ vs h
    rwa [flatten_batched] at this

/-- Modelled from the spec: §3 the document ingestion status. -/
inductive DocStatus where
  | pending
  | chunked
  | indexed
  | failed
  deriving DecidableEq, Repr

/-- Outcome of one ingestion run: the document's final status and the vector
index state after the run. -/
structure PipelineResult where
  status : DocStatus
  index : VectorIndex
  deriving DecidableEq, Repr

/-- The IndexEntries built for a document: one per (chunk, vector) pair, all
carrying the document's id and source filename. -/
def mkEntries (docId filename : String) (chunks : List Chunk) (vecs : List Vec) :
    List IndexEntry :=
  List.zipWith
    (fun (c : Chunk) (v : Vec) =>
      { chunkId := docId ++ "-" ++ toString c.ordinal
        docId := docId
        spanStart := c.startPos
        spanEnd := c.endPos
        sourceFilename := filename
        vector := v })
    chunks vecs

/-- Modelled from the spec: §4.6 `IngestionPipeline.ingest` — chunk the raw
text (zero chunks from non-empty input is a chunking failure), embed all
chunks as one batched call (any embedding failure leaves no partial entries
written), upsert all entries as one batch, and on upsert failure perform the
compensating `delete` of the document's entries; on success the document is
`indexed`, on any failure `failed`. -/
def IngestionPipeline.ingest (cfg : ChunkerConfig) (be : EmbedBackend) (batchSize : Nat)
    (idx : VectorIndex) (docId filename : String) (rawText : List Char) : PipelineResult :=
  match Chunker.chunk cfg rawText with
  | Except.error _ => ⟨DocStatus.failed, idx⟩
  | Except.ok chunks =>
    if chunks.isEmpty && !rawText.isEmpty then ⟨DocStatus.failed, idx⟩
    else
      match Embedder.embed be batchSize (chunks.map (fun c => String.mk c.text)) with
      | Except.error _ => ⟨DocStatus.failed, idx⟩
      | Except.ok vecs =>
        match idx.upsert (mkEntries docId filename chunks vecs) with
        | Except.error _ => ⟨DocStatus.failed, idx.deleteDoc docId⟩
        | Except.ok idx2 => ⟨DocStatus.indexed, idx2⟩

/-- The entries of the index that belong to a document. -/
def docEntries (idx : VectorIndex) (docId : String) : List IndexEntry :=
  idx.entries.filter (fun e => e.docId == docId)

theorem mkEntries_docId (docId filename : String) :
    ∀ (chunks : List Chunk) (vecs : List Vec), ∀ e ∈ mkEntries docId filename chunks vecs,
      e.docId = docId := by
  intro chunks
  induction chunks with
  | nil =>
    intro vecs e he
    exact absurd he (by simp [mkEntries])
  | cons c cs ih =>
    intro vecs e he
    cases vecs with
    | nil => exact absurd he (by simp [mkEntries])
    | cons v vs =>
      rw [mkEntries, List.zipWith_cons_cons] at he
      rcases List.mem_cons.mp he with heq | hmt
      · rw [heq]
      · exact ih vs e hmt

theorem docEntries_deleteDoc (idx : VectorIndex) (d : String) :
    docEntries (idx.deleteDoc d) d = [] := by
  rw [docEntries, VectorIndex.deleteDoc, List.filter_eq_nil_iff]
  intro a ha
  have h2 := (List.mem_filter.mp ha).2
  simp only [Bool.not_eq_eq_eq_not, Bool.not_true, beq_eq_false_iff_ne] at h2
  simpa using h2

theorem upsert_ok_entries (idx : VectorIndex) (batch : List IndexEntry) (idx2 : VectorIndex)
    (h : idx.upsert batch = Except.ok idx2) :
    idx2.entries = idx.entries ++ batch := by
  rw [VectorIndex.upsert] at h
  by_cases hall : batch.all (fun e => e.vector.length == idx.dim)
  · rw [if_pos hall] at h
    cases h
    rfl
  · rw [if_neg hall] at h
    cases h

/-- C1: ingestion is atomic per document — starting from an index holding no
entries for the document, after `ingest` completes either the document is
`indexed` with exactly one IndexEntry per chunk visible, or it is `failed`
and the index holds zero entries for it (the compensating delete removes any
partially written entries); no reachable final state exposes partial
indexing to search. -/
theorem ingest_atomic (cfg : ChunkerConfig) (be : EmbedBackend) (batchSize : Nat)
    (idx : VectorIndex) (docId filename : String) (rawText : List Char)
    (hfresh : ∀ e ∈ idx.entries, e.docId ≠ docId) :
    ((IngestionPipeline.ingest cfg be batchSize idx docId filename rawText).status =
        DocStatus.indexed ∧
      ∀ chunks, Chunker.chunk cfg rawText = Except.ok chunks →
        (docEntries (IngestionPipeline.ingest cfg be batchSize idx docId filename
          rawText).index docId).length = chunks.length) ∨
    ((IngestionPipeline.ingest cfg be batchSize idx docId filename rawText).status =
        DocStatus.failed ∧
      docEntries (IngestionPipeline.ingest cfg be batchSize idx docId filename
        rawText).index docId = []) := by
  have hfresh2 : docEntries idx docId = [] := by
    rw [docEntries, List.filter_eq_nil_iff]
    intro a ha
    simpa using hfresh a ha
  rw [IngestionPipeline.ingest]
  rcases hch : Chunker.chunk cfg rawText with m | chunks
  · exact Or.inr ⟨rfl, hfresh2⟩
  · dsimp only
    by_cases hz : (chunks.isEmpty && !rawText.isEmpty) = true
    · rw [if_pos hz]
      exact Or.inr ⟨rfl, hfresh2⟩
    · rw [if_neg hz]
      split
      · exact Or.inr ⟨rfl, hfresh2⟩
      · next vecs hemb =>
        split
        · exact Or.inr ⟨rfl, docEntries_deleteDoc idx docId⟩
        · next idx2 hup =>
          left
          refine ⟨rfl, ?_⟩
          intro chunks2 hch2
          cases hch2
          show (docEntries idx2 docId).length = chunks.length
          have hent := upsert_ok_entries idx _ idx2 hup
          have hbatch : (mkEntries docId filename chunks vecs).filter
              (fun e => e.docId == docId) = mkEntries docId filename chunks vecs := by
            rw [List.filter_eq_self]
            intro a ha
            simpa using mkEntries_docId docId filename chunks vecs a ha
          have hlen : vecs.length = chunks.length := by
            have := embed_ok_eq be batchSize _ vecs hemb
            rw [this, List.length_map, List.length_map]
          rw [docEntries, hent, List.filter_append, hbatch]
          have hold : idx.entries.filter (fun e => e.docId == docId) = [] := hfresh2
          rw [hold, List.nil_append, mkEntries, List.length_zipWith]
          omega

/-- Witness for C1: ingesting a concrete document into an empty
two-dimensional index with an always-succeeding backend ends `indexed` with
one entry per chunk. -/
theorem ingest_atomic_witness :
    (IngestionPipeline.ingest ⟨5, 2, 2⟩ ⟨2, 100, fun _ => [1, 0], fun _ => false, fun _ => rfl⟩
      3 ⟨2, []⟩ "doc1" "f.pdf" "hello world".data).status = DocStatus.indexed ∧
    (docEntries (IngestionPipeline.ingest ⟨5, 2, 2⟩
      ⟨2, 100, fun _ => [1, 0], fun _ => false, fun _ => rfl⟩
      3 ⟨2, []⟩ "doc1" "f.pdf" "hello world".data).index "doc1").length = 4 := by
  have h := ingest_atomic ⟨5, 2, 2⟩ ⟨2, 100, fun _ => [1, 0], fun _ => false, fun _ => rfl⟩
    3 ⟨2, []⟩ "doc1" "f.pdf" "hello world".data (by simp)
  rcases h with ⟨h1, h2⟩ | ⟨h1, h2⟩
  · refine ⟨h1, ?_⟩
    have h3 := h2 (chunkLoopF ⟨5, 2, 2⟩ "hello world".data ("hello world".data.length + 1) 0 0)
      (by rw [Chunker.chunk, if_neg (by decide)])
    rw [h3]
    decide
  · exact absurd h1 (by decide)
